import Mathlib

/-!
Shallow embedding of the PCSX2 input-manager core
(`pcsx2/Frontend/InputManager.cpp`): binding keys, the key codec,
chord splitting, binding-table construction, and the event-dispatch
engine, together with proofs of the specified properties.

C++ strings are embedded as `List Char`, `u8` fields as `Nat` with
explicit `% 256` where stored, and normalized float values as `ℚ`
(the dispatch path only compares against zero and negates, which are
exact operations on IEEE floats).
-/

namespace InputManager

/-- Modelled from the spec: the device-class enum (`InputSourceType` is
declared in `InputManager.h`, which is not part of the provided sources).
The class names that appear in the provided sources are `Keyboard`,
`Mouse` and `SDL`. -/
inductive InputSourceType where
  | Keyboard
  | Mouse
  | SDL
deriving DecidableEq, Repr

/-- Modelled from the spec: the sub-class enum (`InputSubclass` is declared
in `InputManager.h`, not in the provided sources). Only the constructors
used by `InputManager.cpp` are modelled, plus the default zero value. -/
inductive InputSubclass where
  | nosub
  | MouseButton
  | MousePointer
  | MouseWheel
deriving DecidableEq, Repr

/-- Modelled from the spec: `InputBindingKey` (declared in
`InputManager.h`, not in the provided sources) — one atomic input signal:
device class, device index, sub-class, signal index, and sign
(`negative` marks the negative half of a bipolar axis). -/
structure InputBindingKey where
  source_type : InputSourceType := InputSourceType.Keyboard
  source_subtype : InputSubclass := InputSubclass.nosub
  source_index : Nat := 0
  data : Nat := 0
  negative : Bool := false
deriving DecidableEq, Repr

/-- Modelled from the spec: a direction-masked key clears `negative`, so
both halves of a bipolar axis share one routing index. -/
def InputBindingKey.MaskDirection (k : InputBindingKey) : InputBindingKey :=
  { k with negative := false }

/-- Truncation to an unsigned 8-bit store, for the `u8` mask fields. -/
def u8 (n : Nat) : Nat := n % 256

/-- `std::isspace` for the default locale, as used by
`StringUtil::StripWhitespace` (that helper lives in `common/StringUtil.h`,
not in the provided sources; modelled from the spec's "whitespace-trimmed"). -/
def isSpaceChar (c : Char) : Bool :=
  c = ' ' || c = '\t' || c = '\n' || c = '\x0d' || c = '\x0b' || c = '\x0c'

/-- `StringUtil::StripWhitespace`: drop leading and trailing whitespace. -/
def stripWhitespace (s : List Char) : List Char :=
  ((s.dropWhile isSpaceChar).reverse.dropWhile isSpaceChar).reverse

/-- Split a string at every occurrence of the chord separator, keeping
empty segments: the sequence of maximal runs between the separators.
This is the sequence of segments the loop in `SplitChord` walks. -/
def ampSegments : List Char → List (List Char)
  | [] => [[]]
  | c :: rest =>
    match ampSegments rest with
    | [] => [[]]
    | s :: ss => if c = '&' then [] :: s :: ss else (c :: s) :: ss

/-- The body of `InputManager::SplitChord` over the separator segments.
Every segment before the last is stripped and kept when nonempty; the
final segment is additionally processed only when its raw length is at
least 2, mirroring the source's `last < (binding.size() - 1)` guard
(`last` is the start offset of the final segment). -/
def splitChordSegs : List (List Char) → List (List Char)
  | [] => []
  | [s] =>
    if 2 ≤ s.length then
      (if stripWhitespace s = [] then [] else [stripWhitespace s])
    else []
  | s :: s2 :: ss =>
    (if stripWhitespace s = [] then [] else [stripWhitespace s]) ++
      splitChordSegs (s2 :: ss)

/-- `InputManager::SplitChord`: split a binding string on `&` into
whitespace-stripped parts, dropping empty parts. -/
def SplitChord (binding : List Char) : List (List Char) :=
  if binding = [] then [] else splitChordSegs (ampSegments binding)

/-- `InputManager::SplitBinding`: split at the first `/` into source and
sub-binding; fail when no separator is present. -/
def SplitBinding : List Char → Option (List Char × List Char)
  | [] => none
  | c :: rest =>
    if c = '/' then some ([], rest)
    else
      match SplitBinding rest with
      | none => none
      | some (src, sub) => some (c :: src, sub)

/-- Modelled from the spec: the host keyboard key-name map.
`ConvertHostKeyboardCodeToString` and `ConvertHostKeyboardStringToCode`
are provided by the host layer and are not among the provided sources;
the codec is therefore passed explicitly. -/
structure KeyboardCodec where
  codeToString : Nat → Option (List Char)
  stringToCode : List Char → Option Nat

/-- Modelled from the spec: `StringUtil::FromChars<s32>` digit parsing
(`common/StringUtil.h` is not among the provided sources) — an optional
minus sign followed by decimal digits. -/
def digitsToNat : List Char → Option Nat
  | [] => none
  | s =>
    if s.all (fun c => c.isDigit) then
      some (s.foldl (fun acc c => acc * 10 + (c.toNat - 48)) 0)
    else none

/-- Modelled from the spec: signed 32-bit numeric suffix parsing. -/
def fromCharsS32 (s : List Char) : Option Int :=
  match s with
  | '-' :: rest => (digitsToNat rest).map (fun n => -(n : Int))
  | _ => (digitsToNat s).map (fun n => (n : Int))

/-- `InputManager::MakeHostKeyboardKey`. -/
def MakeHostKeyboardKey (key_code : Nat) : InputBindingKey :=
  { source_type := InputSourceType.Keyboard, data := key_code }

/-- `InputManager::MakeHostMouseButtonKey`. -/
def MakeHostMouseButtonKey (button_index : Nat) : InputBindingKey :=
  { source_type := InputSourceType.Mouse,
    source_subtype := InputSubclass.MouseButton, data := button_index }

/-- `InputManager::MakeHostMouseWheelKey`. -/
def MakeHostMouseWheelKey (axis_index : Nat) : InputBindingKey :=
  { source_type := InputSourceType.Mouse,
    source_subtype := InputSubclass.MouseWheel, data := axis_index }

/-- `InputManager::ParseHostKeyboardKey`: the source must be exactly
`Keyboard`; the sub-binding is resolved through the host codec. -/
def ParseHostKeyboardKey (codec : KeyboardCodec) (source sub_binding : List Char) :
    Option InputBindingKey :=
  if source = ("Keyboard".data) then
    match codec.stringToCode sub_binding with
    | some code => some (MakeHostKeyboardKey code)
    | none => none
  else none

/-- `InputManager::ParseHostMouseKey`: the source must be exactly `Mouse`;
only `Button<n>` sub-bindings with a nonnegative number are accepted. -/
def ParseHostMouseKey (source sub_binding : List Char) : Option InputBindingKey :=
  if source = ("Mouse".data) then
    if ("Button".data).isPrefixOf sub_binding then
      match fromCharsS32 (sub_binding.drop 6) with
      | some n => if n < 0 then none else some (MakeHostMouseButtonKey n.toNat)
      | none => none
    else none
  else none

/-- `InputManager::ParseInputBindingKey`: split at the first `/`, route by
source-name prefix. The external-source loop is empty in this model (no
pluggable sources installed), so unknown prefixes fail. -/
def ParseInputBindingKey (codec : KeyboardCodec) (binding : List Char) :
    Option InputBindingKey :=
  match SplitBinding binding with
  | none => none
  | some (source, sub_binding) =>
    if ("Keyboard".data).isPrefixOf source then
      ParseHostKeyboardKey codec source sub_binding
    else if ("Mouse".data).isPrefixOf source then
      ParseHostMouseKey source sub_binding
    else none

/-- `InputManager::ConvertInputBindingKeyToString`: keyboard keys print as
`Keyboard/<name>` when the host codec names the code with a nonempty
string; mouse keys print as `Mouse<idx>/Button<n>`, `Mouse<idx>/Pointer<n>`
or `Mouse<idx>/Wheel<n><+|->`; everything else (no pluggable source
installed in this model) yields the empty string. -/
def ConvertInputBindingKeyToString (codec : KeyboardCodec) (key : InputBindingKey) :
    List Char :=
  match key.source_type with
  | InputSourceType.Keyboard =>
    match codec.codeToString key.data with
    | some s => if s = [] then [] else ("Keyboard/".data) ++ s
    | none => []
  | InputSourceType.Mouse =>
    match key.source_subtype with
    | InputSubclass.MouseButton =>
      ("Mouse".data) ++ Nat.toDigits 10 key.source_index ++
        ("/Button".data) ++ Nat.toDigits 10 key.data
    | InputSubclass.MousePointer =>
      ("Mouse".data) ++ Nat.toDigits 10 key.source_index ++
        ("/Pointer".data) ++ Nat.toDigits 10 key.data
    | InputSubclass.MouseWheel =>
      ("Mouse".data) ++ Nat.toDigits 10 key.source_index ++
        ("/Wheel".data) ++ Nat.toDigits 10 key.data ++
        [if key.negative then '-' else '+']
    | InputSubclass.nosub => []
  | InputSourceType.SDL => []

/-- The observable effect of `InputEventHandler::Invoke`: a button-style
handler receives a boolean, an axis-style handler the raw magnitude. -/
inductive HandlerCall where
  | button (pressed : Bool)
  | axis (value : ℚ)
deriving DecidableEq, Repr

/-- `InputEventHandler::Invoke`: axis handlers get `value`, button handlers
get `value > 0.0f`. -/
def handlerInvoke (is_axis : Bool) (value : ℚ) : HandlerCall :=
  if is_axis then HandlerCall.axis value else HandlerCall.button (decide (0 < value))

/-- `InputBinding`: the chord keys (the used prefix of the
`keys[MAX_KEYS_PER_BINDING]` array, so `num_keys` is the length), the
handler kind, and the two `u8` masks. -/
structure InputBinding where
  keys : List InputBindingKey := []
  is_axis : Bool := false
  full_mask : Nat := 0
  current_mask : Nat := 0
deriving Repr

/-- `num_keys` of an `InputBinding` (the number of used chord slots). -/
def InputBinding.num_keys (b : InputBinding) : Nat := b.keys.length

/-- The inner scan of `InvokeEvents`: the first chord slot (index and key)
whose direction-masked key equals the masked event key; the loop breaks at
the first match. -/
def findChordSlot (masked_key : InputBindingKey) :
    List InputBindingKey → Option (Nat × InputBindingKey)
  | [] => none
  | k :: ks =>
    if k.MaskDirection = masked_key then some (0, k)
    else
      match findChordSlot masked_key ks with
      | none => none
      | some (i, k0) => some (i + 1, k0)

/-- The per-binding body of `InvokeEvents` (lines 563-592): locate the
matching chord slot, update that slot's bit of `current_mask` from the
polarity-adjusted state, compute the value to deliver, and fire the
handler on a full-state edge or for a nonzero axis value. -/
def processBinding (masked_key : InputBindingKey) (value : ℚ) (b : InputBinding) :
    InputBinding × Option HandlerCall :=
  match findChordSlot masked_key b.keys with
  | none => (b, none)
  | some (i, k) =>
    let bit : Nat := u8 (2 ^ i)
    let negative : Bool := k.negative
    let new_state : Bool := if negative then decide (value < 0) else decide (0 < value)
    let new_mask : Nat :=
      u8 (if new_state then b.current_mask ||| bit else b.current_mask &&& (255 ^^^ bit))
    let prev_full_state : Bool := decide (b.current_mask = b.full_mask)
    let new_full_state : Bool := decide (new_mask = b.full_mask)
    let value_to_pass : ℚ :=
      if negative then (if value < 0 then -value else 0)
      else (if 0 < value then value else 0)
    let fire : Bool :=
      (prev_full_state != new_full_state) || (b.is_axis && decide (0 < value_to_pass))
    ({ b with current_mask := new_mask },
      if fire then some (handlerInvoke b.is_axis value_to_pass) else none)

/-- The binding multimap: a store of chord bindings plus the table entries,
each mapping a direction-masked key to the index of a shared binding
(several entries of one chord reference the same stored binding). -/
structure BindingMap where
  store : List InputBinding := []
  entries : List (InputBindingKey × Nat) := []

/-- The `equal_range` iteration of `InvokeEvents`: process each matching
entry's shared binding in turn, threading the store and collecting the
handler calls. -/
def invokeLoop (masked_key : InputBindingKey) (value : ℚ) :
    List (InputBindingKey × Nat) → List InputBinding →
      List InputBinding × List HandlerCall
  | [], store => (store, [])
  | (k, id) :: rest, store =>
    if k = masked_key then
      match store[id]? with
      | none => invokeLoop masked_key value rest store
      | some b =>
        let r := processBinding masked_key value b
        let tail := invokeLoop masked_key value rest (store.set id r.1)
        (tail.1, r.2.toList ++ tail.2)
    else invokeLoop masked_key value rest store

/-- `InputInterceptHook::CallbackResult`. -/
inductive CallbackResult where
  | ContinueMonitoring
  | StopMonitoring
deriving DecidableEq, Repr

/-- An interception-hook callback. -/
def HookCallback : Type := InputBindingKey → ℚ → CallbackResult

/-- The mutable globals of `InputManager.cpp` that the claims touch: the
binding multimap and the single interception-hook slot. -/
structure InputManagerState where
  binding_map : BindingMap := {}
  event_intercept_callback : Option HookCallback := none

/-- `InputManager::DoEventHook`: when a callback is installed, deliver the
event to it, uninstall it on `StopMonitoring`, and report `true`;
otherwise report `false`. -/
def DoEventHook (s : InputManagerState) (key : InputBindingKey) (value : ℚ) :
    InputManagerState × Bool :=
  match s.event_intercept_callback with
  | none => (s, false)
  | some cb =>
    let action := cb key value
    (if action = CallbackResult.StopMonitoring then
        { s with event_intercept_callback := none }
      else s,
      true)

/-- `InputManager::SetHook`: `pxAssert(!m_event_intercept_callback)`, then
install the callback. The boolean reports whether the assertion held. -/
def SetHook (s : InputManagerState) (cb : HookCallback) : Bool × InputManagerState :=
  (s.event_intercept_callback.isNone, { s with event_intercept_callback := some cb })

/-- `InputManager::RemoveHook`: clear the hook slot. -/
def RemoveHook (s : InputManagerState) : InputManagerState :=
  { s with event_intercept_callback := none }

/-- `InputManager::HasHook`. -/
def HasHook (s : InputManagerState) : Bool := s.event_intercept_callback.isSome

/-- The outcome of one `InvokeEvents` call: the new state, the returned
boolean, the handler calls fired, and the events delivered to the hook. -/
structure InvokeResult where
  state : InputManagerState
  claimed : Bool
  handler_calls : List HandlerCall
  hook_calls : List (InputBindingKey × ℚ)

/-- `InputManager::InvokeEvents`: hook first; otherwise look up the
direction-masked key, return `false` when no entry matches, and otherwise
process every matching binding and return `true`. -/
def InvokeEvents (s : InputManagerState) (key : InputBindingKey) (value : ℚ) :
    InvokeResult :=
  let h := DoEventHook s key value
  if h.2 then
    { state := h.1, claimed := true, handler_calls := [], hook_calls := [(key, value)] }
  else
    let masked_key := key.MaskDirection
    let matching := s.binding_map.entries.filter (fun e => e.1 = masked_key)
    if matching = [] then
      { state := s, claimed := false, handler_calls := [], hook_calls := [] }
    else
      let r := invokeLoop masked_key value matching s.binding_map.store
      { state := { s with binding_map := { s.binding_map with store := r.1 } },
        claimed := true, handler_calls := r.2, hook_calls := [] }

/-- A fresh `InputBinding` as `AddBindings` constructs it, carrying the
handler kind. -/
def freshBinding (is_axis : Bool) : InputBinding := { is_axis := is_axis }

/-- The chord-accumulation loop of `AddBindings`: parse each part, abandon
the whole chord on a parse failure or when a fifth key would be added,
otherwise record the key and extend `full_mask`. -/
def chordLoop (parse : List Char → Option InputBindingKey) (acc : InputBinding) :
    List (List Char) → Option InputBinding
  | [] => some acc
  | part :: rest =>
    match parse part with
    | none => none
    | some key =>
      if acc.num_keys = 4 then none
      else
        chordLoop parse
          { acc with
            keys := acc.keys ++ [key],
            full_mask := u8 (acc.full_mask ||| 2 ^ acc.num_keys) }
          rest

/-- One iteration of `AddBindings`' outer loop: split the binding string
into chord parts, build the shared binding (or abandon it), and on success
insert one table entry per chord key under its direction-masked form. -/
def addOneBinding (parse : List Char → Option InputBindingKey) (is_axis : Bool)
    (m : BindingMap) (binding : List Char) : BindingMap :=
  let chord_bindings := SplitChord binding
  let ib : Option InputBinding :=
    match chord_bindings with
    | [] => none
    | _ :: _ => chordLoop parse (freshBinding is_axis) chord_bindings
  match ib with
  | none => m
  | some b =>
    { store := m.store ++ [b],
      entries := m.entries ++ b.keys.map (fun k => (k.MaskDirection, m.store.length)) }

/-- `InputManager::AddBindings`: process each binding string in turn,
accumulating into the binding map. The key parser is passed explicitly
(in the source it consults the installed input sources). -/
def AddBindings (parse : List Char → Option InputBindingKey) (is_axis : Bool)
    (bindings : List (List Char)) (m : BindingMap) : BindingMap :=
  bindings.foldl (addOneBinding parse is_axis) m

/-! ## Theorems -/

/-- A keyboard codec with no named keys. -/
def emptyKeyboardCodec : KeyboardCodec :=
  { codeToString := fun _ => none, stringToCode := fun _ => none }

/-- A one-entry keyboard codec naming key code 27 `Escape`. -/
def escapeKeyboardCodec : KeyboardCodec :=
  { codeToString := fun c => if c = 27 then some ("Escape".data) else none,
    stringToCode := fun s => if s = ("Escape".data) then some 27 else none }

/-- C6: the claim states that `SplitChord` keeps every part that is
nonempty after trimming. The code instead drops a final segment whose raw
length is below 2 (the `last < (binding.size() - 1)` guard), so
`"a&b"` loses its trailing part `"b"` while `"a& b"` keeps it — trailing
whitespace changes the result, contradicting the claim. -/
theorem C6_splitChord_failing_input :
    SplitChord ('a' :: '&' :: 'b' :: []) = [['a']] ∧
    SplitChord ('a' :: '&' :: ' ' :: 'b' :: []) = [['a'], ['b']] ∧
    SplitChord ('b' :: []) = [] := by decide

/-- C2 (counterexample): the stringifier accepts the mouse button key
`Mouse0/Button0`, but parsing that string fails — `ParseHostMouseKey`
accepts only the exact source `Mouse`, while the stringifier emits
`Mouse<index>` — so parse is not the inverse of toString on mouse keys. -/
theorem C2_roundtrip_counterexample :
    ConvertInputBindingKeyToString emptyKeyboardCodec (MakeHostMouseButtonKey 0) =
      ("Mouse0/Button0".data) ∧
    ParseInputBindingKey emptyKeyboardCodec
      (ConvertInputBindingKeyToString emptyKeyboardCodec (MakeHostMouseButtonKey 0)) =
      none := by decide

/-- `SplitBinding` splits a keyboard-prefixed string at the inserted
separator, whatever the tail holds. -/
theorem splitBinding_keyboard (s : List Char) :
    SplitBinding (("Keyboard/".data) ++ s) = some (("Keyboard".data), s) := rfl

/-- C2 (amended): parse inverts toString for canonical keyboard keys
(those `MakeHostKeyboardKey` builds) whose key code the host codec names
with a nonempty string and maps back to the same code; the mouse strings
that toString emits are not accepted by parse. -/
theorem C2_roundtrip_amended (codec : KeyboardCodec) (code : Nat) (s : List Char)
    (h1 : codec.codeToString code = some s) (h2 : s ≠ [])
    (h3 : codec.stringToCode s = some code) :
    ParseInputBindingKey codec
      (ConvertInputBindingKeyToString codec (MakeHostKeyboardKey code)) =
      some (MakeHostKeyboardKey code) := by
  have hconv : ConvertInputBindingKeyToString codec (MakeHostKeyboardKey code) =
      ("Keyboard/".data) ++ s := by
    simp [ConvertInputBindingKeyToString, MakeHostKeyboardKey, h1, h2]
  rw [hconv]
  rw [ParseInputBindingKey, splitBinding_keyboard]
  simp [ParseHostKeyboardKey, h3]

/-- C2 witness: the amended round-trip at key code 27 under the
one-entry codec. -/
theorem C2_roundtrip_amended_witness :
    ParseInputBindingKey escapeKeyboardCodec
      (ConvertInputBindingKeyToString escapeKeyboardCodec (MakeHostKeyboardKey 27)) =
      some (MakeHostKeyboardKey 27) :=
  C2_roundtrip_amended escapeKeyboardCodec 27 ("Escape".data) (by decide) (by decide)
    (by decide)

/-- The delivered magnitude as the spec phrases it: `|value|` when the
value's sign matches the slot's polarity flag, else `0`. -/
def specDeliveredValue (negative : Bool) (value : ℚ) : ℚ :=
  if (negative = true ∧ value < 0) ∨ (negative = false ∧ 0 < value) then |value| else 0

theorem valueToPass_eq_spec (negative : Bool) (value : ℚ) :
    (if negative then (if value < 0 then -value else 0)
     else (if 0 < value then value else 0)) = specDeliveredValue negative value := by
  rcases lt_trichotomy value 0 with h | h | h
  · cases negative <;> simp [specDeliveredValue, h, h.not_lt, abs_of_neg]
  · cases negative <;> simp [specDeliveredValue, h]
  · cases negative <;> simp [specDeliveredValue, h, h.not_lt, abs_of_pos]

theorem specDeliveredValue_nonneg (negative : Bool) (value : ℚ) :
    0 ≤ specDeliveredValue negative value := by
  unfold specDeliveredValue
  split
  · exact abs_nonneg value
  · exact le_refl 0

/-- The firing test of `InvokeEvents` restated propositionally: the
full-state edge, or an axis handler with a nonzero delivered value. -/
theorem fire_cond_iff (P Q : Prop) [Decidable P] [Decidable Q] (ax : Bool) (d : ℚ)
    (hd : 0 ≤ d) :
    (((decide P != decide Q) || (ax && decide (0 < d))) = true) ↔
      (¬(P ↔ Q) ∨ (ax = true ∧ d ≠ 0)) := by
  have hdne : (0 < d) ↔ d ≠ 0 :=
    ⟨fun h => (ne_of_gt h), fun h => lt_of_le_of_ne hd (Ne.symm h)⟩
  by_cases hP : P <;> by_cases hQ : Q <;> cases ax <;> simp [hP, hQ, hdne]

/-- C1: at a candidate binding's matching chord slot, `full_mask` is
untouched, and the handler call is exactly: fired iff the full state
(`current_mask == full_mask`) changed across the single-bit update or the
handler is axis-style with nonzero delivered magnitude; axis handlers get
the delivered magnitude `specDeliveredValue` (i.e. `|value|` on polarity
match, else `0`), button handlers get the boolean `delivered > 0`. -/
theorem C1_dispatch_delivery (masked_key : InputBindingKey) (value : ℚ)
    (b : InputBinding) (i : Nat) (k : InputBindingKey)
    (hslot : findChordSlot masked_key b.keys = some (i, k)) :
    (processBinding masked_key value b).1.full_mask = b.full_mask ∧
    (processBinding masked_key value b).2 =
      (if (¬((b.current_mask = b.full_mask) ↔
              ((processBinding masked_key value b).1.current_mask = b.full_mask))) ∨
          (b.is_axis = true ∧ specDeliveredValue k.negative value ≠ 0) then
        some
          (if b.is_axis = true then
            HandlerCall.axis (specDeliveredValue k.negative value)
          else HandlerCall.button (decide (0 < specDeliveredValue k.negative value)))
      else none) := by
  have hvtp := valueToPass_eq_spec k.negative value
  have hnn := specDeliveredValue_nonneg k.negative value
  constructor
  · simp [processBinding, hslot]
  · simp only [processBinding, hslot]
    simp only [hvtp]
    simp only [fire_cond_iff _ _ _ _ hnn]
    simp [handlerInvoke]

/-- C1 witness data: a single-key button binding on the default key. -/
def wKey : InputBindingKey := {}

/-- C1 witness data: the binding holding `wKey` alone. -/
def wBinding : InputBinding :=
  { keys := [wKey], is_axis := false, full_mask := 1, current_mask := 0 }

/-- C1 witness: the delivery property at a concrete press of the bound
key with value `1`. -/
theorem C1_dispatch_delivery_witness :
    findChordSlot wKey wBinding.keys = some (0, wKey) ∧
    ((processBinding wKey 1 wBinding).1.full_mask = wBinding.full_mask ∧
     (processBinding wKey 1 wBinding).2 =
      (if (¬((wBinding.current_mask = wBinding.full_mask) ↔
              ((processBinding wKey 1 wBinding).1.current_mask = wBinding.full_mask))) ∨
          (wBinding.is_axis = true ∧ specDeliveredValue wKey.negative 1 ≠ 0) then
        some
          (if wBinding.is_axis = true then
            HandlerCall.axis (specDeliveredValue wKey.negative 1)
          else HandlerCall.button (decide (0 < specDeliveredValue wKey.negative 1)))
      else none)) :=
  ⟨by decide, C1_dispatch_delivery wKey 1 wBinding 0 wKey (by decide)⟩

/-- A slot found by the inner scan is a real chord slot: its index is in
range, it holds the returned key, and that key matches the masked event
key after direction masking. -/
theorem findChordSlot_mem (m : InputBindingKey) (ks : List InputBindingKey)
    (i : Nat) (k : InputBindingKey) (h : findChordSlot m ks = some (i, k)) :
    i < ks.length ∧ ks.get? i = some k ∧ k.MaskDirection = m := by
  induction ks generalizing i with
  | nil => simp [findChordSlot] at h
  | cons k0 ks ih =>
    rw [findChordSlot] at h
    by_cases h0 : k0.MaskDirection = m
    · rw [if_pos h0] at h
      simp only [Option.some.injEq, Prod.mk.injEq] at h
      obtain ⟨hi, hk⟩ := h
      subst hk
      subst hi
      exact ⟨Nat.succ_pos _, rfl, h0⟩
    · rw [if_neg h0] at h
      cases hrec : findChordSlot m ks with
      | none => rw [hrec] at h; exact absurd h (by simp)
      | some p =>
        obtain ⟨j, k1⟩ := p
        rw [hrec] at h
        simp only [Option.some.injEq, Prod.mk.injEq] at h
        obtain ⟨hi, hk⟩ := h
        subst hk
        subst hi
        obtain ⟨hlt, hget, hmaskd⟩ := ih j hrec
        exact ⟨Nat.succ_lt_succ hlt, by simpa using hget, hmaskd⟩

/-- Clearing a chord-slot bit through the `u8` store really clears it. -/
theorem clearBit_testBit (c i : Nat) (hi : i < 8) :
    (u8 (c &&& (255 ^^^ u8 (2 ^ i)))).testBit i = false := by
  have h2 : 2 ^ i < 256 := by
    have := Nat.pow_le_pow_right (show 1 ≤ 2 by omega) (Nat.le_of_lt_succ hi)
    omega
  have hbit : u8 (2 ^ i) = 2 ^ i := Nat.mod_eq_of_lt h2
  rw [hbit]
  show ((c &&& (255 ^^^ 2 ^ i)) % 256).testBit i = false
  rw [show (256 : Nat) = 2 ^ 8 from rfl, Nat.testBit_mod_two_pow, Nat.testBit_land,
    Nat.testBit_xor, show (255 : Nat) = 2 ^ 8 - 1 from rfl,
    Nat.testBit_two_pow_sub_one, Nat.testBit_two_pow_self]
  simp [hi]

/-- C4: direction masking — two keys that differ only in `negative` mask
to the same routing key; and at a chord slot bound to the positive half
(`negative = false`), a negative event value clears the slot bit, leaves
the chord unsatisfied, and delivers magnitude `0` (a handler can fire only
as a release edge with value `0`). -/
theorem C4_direction_masking (k : InputBindingKey) (n1 n2 : Bool)
    (masked_key : InputBindingKey) (value : ℚ) (b : InputBinding) (i : Nat)
    (kk : InputBindingKey)
    (hslot : findChordSlot masked_key b.keys = some (i, kk))
    (hpos : kk.negative = false) (hneg : value < 0)
    (hmask : b.full_mask = 2 ^ b.num_keys - 1) (hn4 : b.num_keys ≤ 4) :
    ({ k with negative := n1 } : InputBindingKey).MaskDirection =
      ({ k with negative := n2 } : InputBindingKey).MaskDirection ∧
    (processBinding masked_key value b).1.current_mask.testBit i = false ∧
    (processBinding masked_key value b).1.current_mask ≠
      (processBinding masked_key value b).1.full_mask ∧
    ((processBinding masked_key value b).2 = none ∨
      (processBinding masked_key value b).2 = some (handlerInvoke b.is_axis 0)) := by
  have hi8 : i < 8 := by
    have := (findChordSlot_mem masked_key b.keys i kk hslot).1
    have : i < b.num_keys := this
    omega
  have hfull : b.full_mask.testBit i = true := by
    rw [hmask, Nat.testBit_two_pow_sub_one]
    have := (findChordSlot_mem masked_key b.keys i kk hslot).1
    simpa [InputBinding.num_keys] using this
  have hnotpos : ¬(0 < value) := lt_asymm hneg
  refine ⟨rfl, ?_, ?_, ?_⟩ <;>
    simp only [processBinding, hslot, hpos, decide_eq_false hnotpos,
      Bool.false_eq_true, if_false]
  · exact clearBit_testBit b.current_mask i hi8
  · intro hEq
    have := clearBit_testBit b.current_mask i hi8
    rw [hEq, hfull] at this
    exact Bool.false_ne_true this.symm
  · simp only [if_neg hnotpos]
    split
    · right; rfl
    · left; rfl

/-- Extending a chord's `full_mask` by the next slot keeps the
all-low-bits shape. -/
theorem full_mask_step (n : Nat) (hn : n ≤ 3) :
    u8 ((2 ^ n - 1) ||| 2 ^ n) = 2 ^ (n + 1) - 1 := by
  interval_cases n <;> decide

/-- The chord loop abandons the whole chord when some part fails to parse
or the accumulated key count would exceed the maximum. -/
theorem chordLoop_none (parse : List Char → Option InputBindingKey)
    (acc : InputBinding) (parts : List (List Char)) (hk : acc.num_keys ≤ 4)
    (h : (∃ p ∈ parts, parse p = none) ∨ 4 < acc.num_keys + parts.length) :
    chordLoop parse acc parts = none := by
  induction parts generalizing acc with
  | nil =>
    rcases h with ⟨p, hp, _⟩ | h
    · exact absurd hp (List.not_mem_nil p)
    · simp only [List.length_nil, Nat.add_zero] at h; omega
  | cons p ps ih =>
    rw [chordLoop]
    cases hp : parse p with
    | none => rfl
    | some key =>
      dsimp only
      by_cases h4 : acc.num_keys = 4
      · rw [if_pos h4]
      · rw [if_neg h4]
        apply ih
        · simp only [InputBinding.num_keys, List.length_append, List.length_singleton]
          simp only [InputBinding.num_keys] at hk h4
          omega
        · rcases h with ⟨q, hq, hqn⟩ | hlen
          · rcases List.mem_cons.mp hq with hqp | hq'
            · rw [hqp] at hqn; rw [hqn] at hp; exact absurd hp (by simp)
            · exact Or.inl ⟨q, hq', hqn⟩
          · right
            simp only [InputBinding.num_keys, List.length_append, List.length_singleton]
            simp only [List.length_cons] at hlen
            simp only [InputBinding.num_keys] at hlen
            omega

/-- The chord loop succeeds on fully parsed chords of admissible length
and yields the accumulated key count and the all-low-bits `full_mask`. -/
theorem chordLoop_sound (parse : List Char → Option InputBindingKey)
    (acc : InputBinding) (parts : List (List Char))
    (hall : ∀ p ∈ parts, (parse p).isSome)
    (hlen : acc.num_keys + parts.length ≤ 4)
    (hmask : acc.full_mask = 2 ^ acc.num_keys - 1) :
    ∃ b, chordLoop parse acc parts = some b ∧
      b.num_keys = acc.num_keys + parts.length ∧
      b.full_mask = 2 ^ b.num_keys - 1 ∧
      b.is_axis = acc.is_axis ∧
      b.current_mask = acc.current_mask := by
  induction parts generalizing acc with
  | nil => exact ⟨acc, rfl, by simp, by simpa using hmask, rfl, rfl⟩
  | cons p ps ih =>
    rw [chordLoop]
    cases hp : parse p with
    | none =>
      have := hall p (List.mem_cons_self p ps)
      rw [hp] at this; exact absurd this (by simp)
    | some key =>
      dsimp only
      have h4 : acc.num_keys ≠ 4 := by
        simp only [List.length_cons] at hlen; omega
      rw [if_neg h4]
      have hstep :
          ({ acc with
              keys := acc.keys ++ [key],
              full_mask := u8 (acc.full_mask ||| 2 ^ acc.num_keys) } :
            InputBinding).full_mask =
            2 ^ (acc.num_keys + 1) - 1 := by
        show u8 (acc.full_mask ||| 2 ^ acc.num_keys) = 2 ^ (acc.num_keys + 1) - 1
        rw [hmask]
        exact full_mask_step acc.num_keys (by simp only [List.length_cons] at hlen; omega)
      obtain ⟨b, hb, hnum, hfm, hax, hcm⟩ :=
        ih { acc with
              keys := acc.keys ++ [key],
              full_mask := u8 (acc.full_mask ||| 2 ^ acc.num_keys) }
          (fun q hq => hall q (List.mem_cons_of_mem p hq))
          (by
            simp only [InputBinding.num_keys, List.length_append, List.length_singleton]
            simp only [InputBinding.num_keys, List.length_cons] at hlen
            omega)
          (by
            simpa [InputBinding.num_keys] using hstep)
      refine ⟨b, hb, ?_, hfm, hax, hcm⟩
      simp only [InputBinding.num_keys, List.length_append, List.length_singleton] at hnum
      simp only [InputBinding.num_keys, List.length_cons]
      omega

/-- C3: `AddBindings` is all-or-nothing per binding string — a string with
an unparseable chord part or more than four parts inserts nothing at all,
while an accepted string builds exactly one fresh binding with
`full_mask = 2^num_keys - 1` and one direction-masked table entry per
chord key; either way the remaining strings are still processed. -/
theorem C3_addBindings_all_or_nothing (parse : List Char → Option InputBindingKey)
    (is_axis : Bool) (m : BindingMap) (s : List Char) (rest : List (List Char)) :
    (((∃ p ∈ SplitChord s, parse p = none) ∨ 4 < (SplitChord s).length) →
      addOneBinding parse is_axis m s = m) ∧
    (SplitChord s ≠ [] → (∀ p ∈ SplitChord s, (parse p).isSome) →
      (SplitChord s).length ≤ 4 →
      ∃ b, addOneBinding parse is_axis m s =
          { store := m.store ++ [b],
            entries := m.entries ++
              b.keys.map (fun k2 => (k2.MaskDirection, m.store.length)) } ∧
        b.num_keys = (SplitChord s).length ∧
        b.full_mask = 2 ^ b.num_keys - 1 ∧
        b.current_mask = 0 ∧ b.is_axis = is_axis) ∧
    AddBindings parse is_axis (s :: rest) m =
      AddBindings parse is_axis rest (addOneBinding parse is_axis m s) := by
  refine ⟨?_, ?_, rfl⟩
  · intro h
    cases hsp : SplitChord s with
    | nil => simp [addOneBinding, hsp]
    | cons p ps =>
      rw [hsp] at h
      have hnone : chordLoop parse (freshBinding is_axis) (p :: ps) = none := by
        apply chordLoop_none parse (freshBinding is_axis) (p :: ps)
        · simp [freshBinding, InputBinding.num_keys]
        · simpa [freshBinding, InputBinding.num_keys] using h
      simp [addOneBinding, hsp, hnone]
  · intro hne hall hlen
    cases hsp : SplitChord s with
    | nil => exact absurd hsp hne
    | cons p ps =>
      rw [hsp] at hall hlen
      obtain ⟨b, hb, hnum, hfm, hax, hcm⟩ :=
        chordLoop_sound parse (freshBinding is_axis) (p :: ps) hall
          (by simpa [freshBinding, InputBinding.num_keys] using hlen)
          (by simp [freshBinding, InputBinding.num_keys])
      refine ⟨b, ?_, by simpa [freshBinding, InputBinding.num_keys] using hnum,
        hfm, by simpa [freshBinding] using hcm, by simpa [freshBinding] using hax⟩
      simp [addOneBinding, hsp, hb]

/-- C3 witness data: the key parser backed by the built-in sources with
the empty keyboard codec. -/
def wParse (l : List Char) : Option InputBindingKey :=
  ParseInputBindingKey emptyKeyboardCodec l

/-- C3 witness data: a two-part mouse chord string. -/
def wChordStr : List Char := ("Mouse/Button0 & Mouse/Button1").data

/-- C3 witness: the accepted two-part chord inserts exactly one binding
with two direction-masked entries into the empty map. -/
theorem C3_addBindings_all_or_nothing_witness :
    ∃ b, addOneBinding wParse false {} wChordStr =
        { store := ([] : List InputBinding) ++ [b],
          entries := ([] : List (InputBindingKey × Nat)) ++
            b.keys.map (fun k2 => (k2.MaskDirection, (0 : Nat))) } ∧
      b.num_keys = (SplitChord wChordStr).length ∧
      b.full_mask = 2 ^ b.num_keys - 1 ∧
      b.current_mask = 0 ∧ b.is_axis = false :=
  (C3_addBindings_all_or_nothing wParse false {} wChordStr []).2.1
    (by decide) (by decide) (by decide)

/-- C5: while a hook is installed, `InvokeEvents` delivers the event to
the hook, returns true, fires no table handler and leaves the table
untouched, whatever the hook answers; the hook survives unless it answers
`StopMonitoring`, in which case (as after `RemoveHook`) the next call's
hook stage declines and normal table dispatch resumes. -/
theorem C5_hook_priority (s : InputManagerState) (cb : HookCallback)
    (key key2 : InputBindingKey) (value value2 : ℚ)
    (hcb : s.event_intercept_callback = some cb) :
    (InvokeEvents s key value).claimed = true ∧
    (InvokeEvents s key value).handler_calls = [] ∧
    (InvokeEvents s key value).hook_calls = [(key, value)] ∧
    (InvokeEvents s key value).state.binding_map = s.binding_map ∧
    (InvokeEvents s key value).state.event_intercept_callback =
      (if cb key value = CallbackResult.StopMonitoring then none else some cb) ∧
    (cb key value = CallbackResult.StopMonitoring →
      DoEventHook (InvokeEvents s key value).state key2 value2 =
        ((InvokeEvents s key value).state, false)) ∧
    (RemoveHook s).event_intercept_callback = none ∧
    DoEventHook (RemoveHook s) key2 value2 = (RemoveHook s, false) := by
  by_cases hsc : cb key value = CallbackResult.StopMonitoring <;>
    simp [InvokeEvents, DoEventHook, RemoveHook, hcb, hsc]

/-- C5 witness data: a hook that keeps monitoring. -/
def wHook : HookCallback := fun _ _ => CallbackResult.ContinueMonitoring

/-- C5 witness data: a state holding one bound key and the monitoring
hook. -/
def wState : InputManagerState :=
  { binding_map := { store := [wBinding], entries := [(wKey.MaskDirection, 0)] },
    event_intercept_callback := some wHook }

/-- C5 witness: hook priority at a concrete state with a bound key. -/
theorem C5_hook_priority_witness :
    (InvokeEvents wState wKey 1).claimed = true ∧
    (InvokeEvents wState wKey 1).handler_calls = [] ∧
    (InvokeEvents wState wKey 1).hook_calls = [(wKey, 1)] ∧
    (InvokeEvents wState wKey 1).state.binding_map = wState.binding_map ∧
    (InvokeEvents wState wKey 1).state.event_intercept_callback =
      (if wHook wKey 1 = CallbackResult.StopMonitoring then none else some wHook) ∧
    (wHook wKey 1 = CallbackResult.StopMonitoring →
      DoEventHook (InvokeEvents wState wKey 1).state wKey 0 =
        ((InvokeEvents wState wKey 1).state, false)) ∧
    (RemoveHook wState).event_intercept_callback = none ∧
    DoEventHook (RemoveHook wState) wKey 0 = (RemoveHook wState, false) :=
  C5_hook_priority wState wHook wKey wKey 1 0 rfl

/-- C7: with no hook installed, `InvokeEvents` returns true exactly when
some table entry is registered under the direction-masked event key. -/
theorem C7_claimed_iff (s : InputManagerState) (key : InputBindingKey) (value : ℚ)
    (hno : s.event_intercept_callback = none) :
    (InvokeEvents s key value).claimed = true ↔
      ∃ e ∈ s.binding_map.entries, e.1 = key.MaskDirection := by
  by_cases hm :
      s.binding_map.entries.filter (fun e => e.1 = key.MaskDirection) = []
  · rw [List.filter_eq_nil_iff] at hm
    have hm2 :
        s.binding_map.entries.filter (fun e => e.1 = key.MaskDirection) = [] :=
      List.filter_eq_nil_iff.mpr hm
    simp [InvokeEvents, DoEventHook, hno, hm2]
    intro x hx
    exact hm _ hx (by simp)
  · simp only [InvokeEvents, DoEventHook, hno]
    rw [if_neg (by simp)]
    simp only [hm, if_false]
    constructor
    · intro _
      obtain ⟨e, he⟩ := List.exists_mem_of_ne_nil _ hm
      have := List.mem_filter.mp he
      exact ⟨e, this.1, by simpa using this.2⟩
    · intro _; trivial

/-- C7 witness data: the hookless state with one bound key. -/
def wStateNoHook : InputManagerState :=
  { binding_map := { store := [wBinding], entries := [(wKey.MaskDirection, 0)] },
    event_intercept_callback := none }

/-- C7 witness: the claimed flag at a bound key of a concrete state. -/
theorem C7_claimed_iff_witness :
    (InvokeEvents wStateNoHook wKey 1).claimed = true ↔
      ∃ e ∈ wStateNoHook.binding_map.entries, e.1 = wKey.MaskDirection :=
  C7_claimed_iff wStateNoHook wKey 1 rfl

/-- C9: when no hook is installed, `SetHook`'s assertion holds and the
callback is installed; when a hook is already installed, the assertion
fails (a caller error surfaced in debug builds), though the slot is still
overwritten in release semantics. -/
theorem C9_setHook_assertion (s : InputManagerState) (cb : HookCallback) :
    (s.event_intercept_callback = none →
      (SetHook s cb).1 = true ∧
      (SetHook s cb).2.event_intercept_callback = some cb) ∧
    (∀ g, s.event_intercept_callback = some g → (SetHook s cb).1 = false) := by
  constructor
  · intro h
    exact ⟨by simp [SetHook, h], rfl⟩
  · intro g h
    simp [SetHook, h]

/-- C9 witness: the assertion outcome on a hookless state and on a state
already holding a hook. -/
theorem C9_setHook_assertion_witness :
    ((SetHook { binding_map := {}, event_intercept_callback := none } wHook).1 = true ∧
      (SetHook { binding_map := {}, event_intercept_callback := none }
          wHook).2.event_intercept_callback = some wHook) ∧
    (SetHook wState wHook).1 = false :=
  ⟨(C9_setHook_assertion { binding_map := {}, event_intercept_callback := none }
      wHook).1 rfl,
    (C9_setHook_assertion wState wHook).2 wHook rfl⟩

/-- The structural invariant of a live binding: between one and four
chord keys, `full_mask` with exactly the low `num_keys` bits set, and a
`current_mask` that is a `u8` value confined to `full_mask`
(`current_mask & ~full_mask == 0` over the 8-bit store). -/
def WellFormedBinding (b : InputBinding) : Prop :=
  1 ≤ b.num_keys ∧ b.num_keys ≤ 4 ∧ b.full_mask = 2 ^ b.num_keys - 1 ∧
    b.current_mask < 256 ∧ b.current_mask &&& (255 ^^^ b.full_mask) = 0

instance : DecidablePred WellFormedBinding := fun b => by
  unfold WellFormedBinding; infer_instance

/-- Setting a bit already inside `full_mask` keeps `current_mask`
confined to `full_mask`. -/
theorem setBit_confined (c full i : Nat) (hc : c &&& (255 ^^^ full) = 0)
    (hflt : full < 256) (hfi : full.testBit i = true) :
    (c ||| 2 ^ i) &&& (255 ^^^ full) = 0 := by
  have hi8 : i < 8 := by
    have := Nat.testBit_implies_ge hfi
    by_contra hge
    have h8 : (8 : Nat) ≤ i := Nat.le_of_not_lt hge
    have : (256 : Nat) ≤ 2 ^ i := by
      calc (256 : Nat) = 2 ^ 8 := rfl
        _ ≤ 2 ^ i := Nat.pow_le_pow_right (by omega) h8
    omega
  apply Nat.eq_of_testBit_eq
  intro j
  have hcj : (c &&& (255 ^^^ full)).testBit j = false := by
    rw [hc]; exact Nat.zero_testBit j
  rw [Nat.testBit_land] at hcj
  simp only [Nat.testBit_land, Nat.testBit_lor, Nat.zero_testBit]
  by_cases hj : j = i
  · subst hj
    have hx : (255 ^^^ full).testBit j = false := by
      rw [Nat.testBit_xor, hfi, show (255 : Nat) = 2 ^ 8 - 1 from rfl,
        Nat.testBit_two_pow_sub_one]
      simp [hi8]
    simp [hx]
  · have h2 : (2 ^ i).testBit j = false := by
      rw [Nat.testBit_two_pow]
      exact decide_eq_false (fun h => hj h.symm)
    rw [h2, Bool.or_false]
    exact hcj

/-- Clearing any bit keeps `current_mask` confined to `full_mask`. -/
theorem clearBit_confined (c full i : Nat) (hc : c &&& (255 ^^^ full) = 0) :
    (c &&& (255 ^^^ 2 ^ i)) &&& (255 ^^^ full) = 0 := by
  rw [Nat.land_assoc, Nat.land_comm (255 ^^^ 2 ^ i), ← Nat.land_assoc, hc,
    Nat.zero_and]

/-- `processBinding` preserves the binding invariant and changes
`current_mask` by at most one bit, at a slot index below `num_keys`. -/
theorem processBinding_WF (masked_key : InputBindingKey) (value : ℚ)
    (b : InputBinding) (h : WellFormedBinding b) :
    WellFormedBinding (processBinding masked_key value b).1 ∧
    ((processBinding masked_key value b).1.current_mask = b.current_mask ∨
      ∃ i, i < b.num_keys ∧
        ((processBinding masked_key value b).1.current_mask = b.current_mask ||| 2 ^ i ∨
         (processBinding masked_key value b).1.current_mask =
           b.current_mask &&& (255 ^^^ 2 ^ i))) := by
  obtain ⟨h1, h4, hfm, hlt, hconf⟩ := h
  cases hslot : findChordSlot masked_key b.keys with
  | none =>
    constructor
    · simp only [processBinding, hslot]
      exact ⟨h1, h4, hfm, hlt, hconf⟩
    · left; simp [processBinding, hslot]
  | some p =>
    obtain ⟨i, k⟩ := p
    have hi : i < b.num_keys := (findChordSlot_mem masked_key b.keys i k hslot).1
    have hi8 : i < 8 := by omega
    have hbit : u8 (2 ^ i) = 2 ^ i := by
      apply Nat.mod_eq_of_lt
      have := Nat.pow_le_pow_right (show 1 ≤ 2 by omega) (Nat.le_of_lt_succ hi8)
      omega
    have h2i : (2 : Nat) ^ i < 256 := by
      have := Nat.pow_le_pow_right (show 1 ≤ 2 by omega) (Nat.le_of_lt_succ hi8)
      omega
    have hflt : b.full_mask < 256 := by
      rw [hfm]
      have := Nat.pow_le_pow_right (show 1 ≤ 2 by omega) h4
      omega
    have hfi : b.full_mask.testBit i = true := by
      rw [hfm, Nat.testBit_two_pow_sub_one]
      simpa using hi
    simp only [processBinding, hslot, hbit]
    set ns : Bool :=
      (if k.negative = true then decide (value < 0) else decide (0 < value)) with hns
    cases hnsv : ns
    · -- clear branch
      have hle : b.current_mask &&& (255 ^^^ 2 ^ i) < 256 :=
        Nat.lt_of_le_of_lt Nat.and_le_left hlt
      have hu : u8 (b.current_mask &&& (255 ^^^ 2 ^ i)) =
          b.current_mask &&& (255 ^^^ 2 ^ i) := Nat.mod_eq_of_lt hle
      refine ⟨⟨?_, ?_, ?_, ?_, ?_⟩, ?_⟩
      · simpa [InputBinding.num_keys] using h1
      · simpa [InputBinding.num_keys] using h4
      · simpa [InputBinding.num_keys] using hfm
      · simpa [hnsv, hu] using hle
      · simpa [hnsv, hu, InputBinding.num_keys] using
          clearBit_confined b.current_mask b.full_mask i hconf
      · right
        exact ⟨i, hi, Or.inr (by simp [hnsv, hu])⟩
    · -- set branch
      have hor : b.current_mask ||| 2 ^ i < 256 := by
        have : b.current_mask ||| 2 ^ i < 2 ^ 8 :=
          Nat.or_lt_two_pow (by omega) (by omega)
        omega
      have hu : u8 (b.current_mask ||| 2 ^ i) = b.current_mask ||| 2 ^ i :=
        Nat.mod_eq_of_lt hor
      refine ⟨⟨?_, ?_, ?_, ?_, ?_⟩, ?_⟩
      · simpa [InputBinding.num_keys] using h1
      · simpa [InputBinding.num_keys] using h4
      · simpa [InputBinding.num_keys] using hfm
      · simpa [hnsv, hu] using hor
      · simpa [hnsv, hu, InputBinding.num_keys] using
          setBit_confined b.current_mask b.full_mask i hconf hflt hfi
      · right
        exact ⟨i, hi, Or.inl (by simp [hnsv, hu])⟩

/-- The dispatch iteration preserves the invariant of every stored
binding. -/
theorem invokeLoop_WF (masked_key : InputBindingKey) (value : ℚ)
    (entries : List (InputBindingKey × Nat)) (store : List InputBinding)
    (h : ∀ b ∈ store, WellFormedBinding b) :
    ∀ b ∈ (invokeLoop masked_key value entries store).1, WellFormedBinding b := by
  induction entries generalizing store with
  | nil => simpa [invokeLoop] using h
  | cons e rest ih =>
    obtain ⟨k, id⟩ := e
    rw [invokeLoop]
    by_cases hk : k = masked_key
    · rw [if_pos hk]
      cases hget : store[id]? with
      | none => exact ih store h
      | some b0 =>
        dsimp only
        apply ih
        intro x hx
        rcases List.mem_or_eq_of_mem_set hx with hx' | hx'
        · exact h x hx'
        · rw [hx']
          exact (processBinding_WF masked_key value b0
            (h b0 (List.getElem?_mem hget))).1
    · rw [if_neg hk]
      exact ih store h

/-- A successful chord build starting from a well-shaped accumulator
yields a well-shaped binding with at least as many keys. -/
theorem chordLoop_WF (parse : List Char → Option InputBindingKey)
    (acc : InputBinding) (parts : List (List Char)) (b : InputBinding)
    (hmask : acc.full_mask = 2 ^ acc.num_keys - 1)
    (hcm : acc.current_mask = 0) (hk : acc.num_keys ≤ 4)
    (h : chordLoop parse acc parts = some b) :
    b.full_mask = 2 ^ b.num_keys - 1 ∧ b.current_mask = 0 ∧ b.num_keys ≤ 4 ∧
      acc.num_keys ≤ b.num_keys ∧ (parts ≠ [] → acc.num_keys < b.num_keys) := by
  induction parts generalizing acc with
  | nil =>
    rw [chordLoop] at h
    injection h with h
    subst h
    exact ⟨hmask, hcm, hk, Nat.le_refl _, fun hne => absurd rfl hne⟩
  | cons p ps ih =>
    rw [chordLoop] at h
    cases hp : parse p
    · rw [hp] at h; exact absurd h (by simp)
    · rw [hp] at h
      dsimp only at h
      by_cases h4 : acc.num_keys = 4
      · rw [if_pos h4] at h; exact absurd h (by simp)
      · rw [if_neg h4] at h
        have h3 : acc.num_keys ≤ 3 := by omega
        obtain ⟨hfm, hc, hk', hge, _⟩ :=
          ih _ (by
              show u8 (acc.full_mask ||| 2 ^ acc.num_keys) = _
              rw [hmask]
              have := full_mask_step acc.num_keys h3
              simpa [InputBinding.num_keys] using this)
            (by simpa using hcm)
            (by simp only [InputBinding.num_keys, List.length_append,
                  List.length_singleton]
                simp only [InputBinding.num_keys] at h3
                omega)
            h
        refine ⟨hfm, hc, hk', ?_, ?_⟩
        · simp only [InputBinding.num_keys, List.length_append,
            List.length_singleton] at hge
          simp only [InputBinding.num_keys]
          omega
        · intro _
          simp only [InputBinding.num_keys, List.length_append,
            List.length_singleton] at hge
          simp only [InputBinding.num_keys]
          omega

/-- `addOneBinding` preserves the store invariant: an inserted binding is
well-formed from the start. -/
theorem addOneBinding_WF (parse : List Char → Option InputBindingKey)
    (is_axis : Bool) (m : BindingMap) (s : List Char)
    (h : ∀ b ∈ m.store, WellFormedBinding b) :
    ∀ b ∈ (addOneBinding parse is_axis m s).store, WellFormedBinding b := by
  cases hsp : SplitChord s with
  | nil => simpa [addOneBinding, hsp] using h
  | cons p ps =>
    cases hcl : chordLoop parse (freshBinding is_axis) (p :: ps) with
    | none => simpa [addOneBinding, hsp, hcl] using h
    | some b0 =>
      have hwf : WellFormedBinding b0 := by
        obtain ⟨hfm, hcm, hk4, _, hpos⟩ :=
          chordLoop_WF parse (freshBinding is_axis) (p :: ps) b0
            (by simp [freshBinding, InputBinding.num_keys])
            (by simp [freshBinding])
            (by simp [freshBinding, InputBinding.num_keys]) hcl
        refine ⟨?_, hk4, hfm, ?_, ?_⟩
        · have := hpos (by simp)
          simpa [freshBinding, InputBinding.num_keys] using this
        · rw [hcm]; omega
        · rw [hcm]; exact Nat.zero_and _
      intro b hb
      simp only [addOneBinding, hsp, hcl] at hb
      rcases List.mem_append.mp hb with hb' | hb'
      · exact h b hb'
      · rw [List.mem_singleton.mp hb']
        exact hwf

/-- C10: every binding reachable from the table satisfies the invariant
(`1 ≤ num_keys ≤ 4`, `full_mask = 2^num_keys - 1`, `current_mask`
confined to `full_mask`): `AddBindings` establishes it for everything it
inserts, `InvokeEvents` preserves it for the whole store, and each
per-binding step flips at most one `current_mask` bit, at a slot index
below `num_keys`. -/
theorem C10_binding_invariant (parse : List Char → Option InputBindingKey)
    (is_axis : Bool) (strs : List (List Char)) (m : BindingMap)
    (s : InputManagerState) (key masked_key : InputBindingKey) (value : ℚ)
    (b0 : InputBinding) :
    ((∀ b ∈ m.store, WellFormedBinding b) →
      ∀ b ∈ (AddBindings parse is_axis strs m).store, WellFormedBinding b) ∧
    ((∀ b ∈ s.binding_map.store, WellFormedBinding b) →
      ∀ b ∈ (InvokeEvents s key value).state.binding_map.store,
        WellFormedBinding b) ∧
    (WellFormedBinding b0 →
      WellFormedBinding (processBinding masked_key value b0).1 ∧
      ((processBinding masked_key value b0).1.current_mask = b0.current_mask ∨
        ∃ i, i < b0.num_keys ∧
          ((processBinding masked_key value b0).1.current_mask =
              b0.current_mask ||| 2 ^ i ∨
           (processBinding masked_key value b0).1.current_mask =
              b0.current_mask &&& (255 ^^^ 2 ^ i)))) := by
  refine ⟨?_, ?_, fun h => processBinding_WF masked_key value b0 h⟩
  · intro h
    induction strs generalizing m with
    | nil => simpa [AddBindings] using h
    | cons s0 rest ih =>
      show ∀ b ∈ (AddBindings parse is_axis rest
          (addOneBinding parse is_axis m s0)).store, WellFormedBinding b
      exact ih _ (addOneBinding_WF parse is_axis m s0 h)
  · intro h
    rw [InvokeEvents]
    cases hdo : (DoEventHook s key value).2
    · rw [if_neg (by simp [hdo])]
      by_cases hm :
          s.binding_map.entries.filter (fun e => e.1 = key.MaskDirection) = []
      · simpa [hm] using h
      · rw [if_neg hm]
        exact invokeLoop_WF key.MaskDirection value _ _ h
    · rw [if_pos (by simp [hdo])]
      dsimp only
      cases hcb : s.event_intercept_callback with
      | none =>
        simp only [DoEventHook, hcb]
        exact h
      | some cb =>
        simp only [DoEventHook, hcb]
        split <;> exact h

/-- C10 witness: the invariant at a concrete reload, dispatch and
per-binding step. -/
theorem C10_binding_invariant_witness :
    (∀ b ∈ (AddBindings wParse false [wChordStr] ({} : BindingMap)).store,
      WellFormedBinding b) ∧
    (∀ b ∈ (InvokeEvents wStateNoHook wKey 1).state.binding_map.store,
      WellFormedBinding b) ∧
    (WellFormedBinding (processBinding wKey 1 wBinding).1 ∧
      ((processBinding wKey 1 wBinding).1.current_mask = wBinding.current_mask ∨
        ∃ i, i < wBinding.num_keys ∧
          ((processBinding wKey 1 wBinding).1.current_mask =
              wBinding.current_mask ||| 2 ^ i ∨
           (processBinding wKey 1 wBinding).1.current_mask =
              wBinding.current_mask &&& (255 ^^^ 2 ^ i)))) :=
  ⟨(C10_binding_invariant wParse false [wChordStr] {} wStateNoHook wKey wKey 1
      wBinding).1 (by simp),
    (C10_binding_invariant wParse false [wChordStr] {} wStateNoHook wKey wKey 1
      wBinding).2.1 (by decide),
    (C10_binding_invariant wParse false [wChordStr] {} wStateNoHook wKey wKey 1
      wBinding).2.2 (by decide)⟩

/-- C4 witness: direction masking at a concrete positive-half binding hit
with the negative value `-1/2`. -/
theorem C4_direction_masking_witness :
    ((-1/2 : ℚ) < 0) ∧
    (({ wKey with negative := true } : InputBindingKey).MaskDirection =
        ({ wKey with negative := false } : InputBindingKey).MaskDirection ∧
      (processBinding wKey (-1/2) wBinding).1.current_mask.testBit 0 = false ∧
      (processBinding wKey (-1/2) wBinding).1.current_mask ≠
        (processBinding wKey (-1/2) wBinding).1.full_mask ∧
      ((processBinding wKey (-1/2) wBinding).2 = none ∨
        (processBinding wKey (-1/2) wBinding).2 =
          some (handlerInvoke wBinding.is_axis 0))) :=
  ⟨by norm_num,
    C4_direction_masking wKey true false wKey (-1/2) wBinding 0 wKey
      (by decide) (by decide) (by norm_num) (by decide) (by decide)⟩

end InputManager
